import Mathlib

/-! goprep: the line rewriter of `goprep.go`

A shallow embedding of the per-line state machine of `goprep.go`
(`read`, `comment`, `unComment`, `whitePreffix`, `hasArgument`) and of the
line loop of `processLines`, with the properties of the rewriter proved
about that embedding.

Representation:

* A Go `string` is a `List Char`, one element per rune of the (UTF-8) text.
  The source indexes strings by byte.  The only index it ever computes is the
  result of `whitePreffix`, the offset of the first rune that is neither a
  tab nor a space; every rune before that offset is one byte wide, so the
  byte offset equals the number of list elements skipped.  The literals
  compared by `strings.HasPrefix` are ASCII, so a byte prefix is an element
  prefix.
* A slice expression `s[lo:]` or `s[:hi]` panics in Go when the index is out
  of range.  The slices are therefore modelled as partial (`Option`), and so
  are the functions which use them; `none` is a run-time panic.
* `lineFunc`, the Go function type whose values are `read`, `comment` and
  `unComment`, is an enumeration; `call` applies such a value.
* The package variable `args` (set once in `main`) is an explicit parameter.
* The scanner of `processLines` is represented by the list of lines it
  yields, the buffer by the list of lines written to it (each one is
  followed by a newline byte in the file).
-/

namespace Goprep

/-- A Go string, as the list of its runes. -/
abbrev Line := List Char

/-- The constant `preprocessorStart = "//#if "`. -/
def preprocessorStart : Line := ['/', '/', '#', 'i', 'f', ' ']

/-- The constant `preprocessorEnd = "//#endif"`. -/
def preprocessorEnd : Line := ['/', '/', '#', 'e', 'n', 'd', 'i', 'f']

/-- The constant `commentStart = "//"`. -/
def commentStart : Line := ['/', '/']

/-- Go `len(s)`. -/
def len (s : Line) : Nat := s.length

/-- Go `s[lo:]`: panics (here `none`) unless `lo ≤ len(s)`. -/
def sliceFrom (s : Line) (lo : Nat) : Option Line :=
  if lo ≤ len s then some (s.drop lo) else none

/-- Go `s[:hi]`: panics (here `none`) unless `hi ≤ len(s)`. -/
def sliceTo (s : Line) (hi : Nat) : Option Line :=
  if hi ≤ len s then some (s.take hi) else none

/-- Go `strings.HasPrefix(s, pre)`, which is
`len(s) >= len(pre) && s[:len(pre)] == pre`. -/
def hasPrefix (s pre : Line) : Bool :=
  decide (len pre ≤ len s) && (s.take (len pre) == pre)

/-- The loop of `whitePreffix`: `i` is the offset of the first rune of `rest`
in the line, `n` is `len(line)`.  The first rune that is neither a tab nor a
space returns its offset; running off the end returns `len(line)`. -/
def whitePreffixLoop (n : Nat) : Nat → Line → Nat
  | _, [] => n
  | i, c :: rest =>
    if c != '\t' && c != ' ' then i else whitePreffixLoop n (i + 1) rest

/-- Go `whitePreffix(line)`. -/
def whitePreffix (line : Line) : Nat :=
  whitePreffixLoop (len line) 0 line

/-- Go `hasArgument(arg)`, over the argument list `args`. -/
def hasArgument (args : List Line) (arg : Line) : Bool :=
  match args with
  | [] => false
  | l :: rest => if arg == l then true else hasArgument rest arg

/-- The values of the Go type `lineFunc`: the function for the next line. -/
inductive lineFunc where
  | read
  | comment
  | unComment
  deriving DecidableEq, Repr

/-- Go `read(line)`. -/
def read (args : List Line) (line : Line) : Option (Line × lineFunc) := do
  let p := whitePreffix line
  let t ← sliceFrom line p
  if hasPrefix t preprocessorStart then
    let a ← sliceFrom line (p + len preprocessorStart)
    if hasArgument args a then
      return (line, lineFunc.unComment)
    return (line, lineFunc.comment)
  return (line, lineFunc.read)

/-- Go `comment(line)`. -/
def comment (line : Line) : Option (Line × lineFunc) := do
  let p := whitePreffix line
  let t ← sliceFrom line p
  if hasPrefix t preprocessorEnd then
    return (line, lineFunc.read)
  let t2 ← sliceFrom line p
  if !hasPrefix t2 commentStart then
    let a ← sliceTo line p
    let b ← sliceFrom line p
    return (a ++ commentStart ++ b, lineFunc.comment)
  return (line, lineFunc.comment)

/-- Go `unComment(line)`. -/
def unComment (line : Line) : Option (Line × lineFunc) := do
  let p := whitePreffix line
  let trimmed ← sliceFrom line p
  if hasPrefix trimmed preprocessorEnd then
    return (line, lineFunc.read)
  if hasPrefix trimmed commentStart then
    let a ← sliceTo line p
    let b ← sliceFrom trimmed 2
    return (a ++ b, lineFunc.unComment)
  return (line, lineFunc.unComment)

/-- The call `f(a)` of a `lineFunc` value. -/
def call (args : List Line) (f : lineFunc) (a : Line) :
    Option (Line × lineFunc) :=
  match f with
  | lineFunc.read => read args a
  | lineFunc.comment => comment a
  | lineFunc.unComment => unComment a

/-- The `for scanner.Scan()` loop of `processLines`: the remaining lines, the
current `f`, the buffer and the `changed` flag. -/
def lineLoop (args : List Line) :
    List Line → lineFunc → List Line → Bool → Option (List Line × Bool)
  | [], _, buffer, changed => some (buffer, changed)
  | a :: rest, f, buffer, changed =>
    match call args f a with
    | none => none
    | some (b, f') =>
      lineLoop args rest f' (buffer ++ [b]) (if b != a then true else changed)

/-- Go `processLines`, on the lines of the opened file: the loop starts with
`f = read`, an empty buffer and `changed = false`. -/
def processLines (args : List Line) (lines : List Line) :
    Option (List Line × Bool) :=
  lineLoop args lines lineFunc.read [] false

/-- Go `strings.HasSuffix(s, suf)`, which is
`len(s) >= len(suf) && s[len(s)-len(suf):] == suf`. -/
def hasSuffix (s suf : Line) : Bool :=
  decide (len suf ≤ len s) && (s.drop (len s - len suf) == suf)

/-- Go `processFile`, on the name of the directory entry and the lines of the
file: `none` is a panic, `some none` is a return without a write, and
`some (some buf)` is a return after the call `writeFile(file, buf)`. -/
def processFile (args : List Line) (name : Line) (lines : List Line) :
    Option (Option (List Line)) :=
  if hasSuffix name ['.', 'g', 'o'] then
    match processLines args lines with
    | none => none
    | some (buf, changed) => if changed then some (some buf) else some none
  else
    some none

/-! ## Vocabulary of the properties

The properties speak of "the content of a line after its leading spaces and
tabs".  These definitions give that phrase a meaning of its own, which does
not go through `whitePreffix`. -/

/-- A space or a tab. -/
def blank (c : Char) : Bool := c == ' ' || c == '\t'

/-- The line without its leading spaces and tabs. -/
def afterBlanks (line : Line) : Line := line.dropWhile blank

/-- The leading spaces and tabs of the line. -/
def blanksOf (line : Line) : Line := line.takeWhile blank

/-- The string consists of spaces and tabs only. -/
def onlyBlanks (w : Line) : Bool := w.all blank

/-- The content of the line after its leading spaces and tabs begins with
`pre`. -/
def beginsWith (line pre : Line) : Bool :=
  (afterBlanks line).take pre.length == pre

/-- What follows the first two characters of the content of the line: for a
commented line, what follows the marker `//`. -/
def afterMarker (line : Line) : Line := (afterBlanks line).drop 2

/-- The end directive without its comment marker, `#endif`. -/
def bareEnd : Line := ['#', 'e', 'n', 'd', 'i', 'f']

/-- The line `b` is the line `a` itself, or `a` with `//` inserted right after
its leading spaces and tabs, or `a` without the two characters `//` that
follow its leading spaces and tabs. -/
def rewriteOf (a b : Line) : Prop :=
  b = a ∨
  b = blanksOf a ++ commentStart ++ afterBlanks a ∨
  ((afterBlanks a).take 2 = commentStart ∧ b = blanksOf a ++ (afterBlanks a).drop 2)

/-! ## The total form of the three functions

What `read`, `comment` and `unComment` return, written without the slice
checks; `call_eq_step` proves that the functions never panic and return
exactly this. -/

/-- The result of `call args f line`. -/
def step (args : List Line) (f : lineFunc) (line : Line) : Line × lineFunc :=
  match f with
  | lineFunc.read =>
    if beginsWith line preprocessorStart then
      if hasArgument args ((afterBlanks line).drop 6) then (line, lineFunc.unComment)
      else (line, lineFunc.comment)
    else (line, lineFunc.read)
  | lineFunc.comment =>
    if beginsWith line preprocessorEnd then (line, lineFunc.read)
    else if beginsWith line commentStart then (line, lineFunc.comment)
    else (blanksOf line ++ commentStart ++ afterBlanks line, lineFunc.comment)
  | lineFunc.unComment =>
    if beginsWith line preprocessorEnd then (line, lineFunc.read)
    else if beginsWith line commentStart then
      (blanksOf line ++ (afterBlanks line).drop 2, lineFunc.unComment)
    else (line, lineFunc.unComment)

/-- The lines written by the loop from `f` on. -/
def outLines (args : List Line) : lineFunc → List Line → List Line
  | _, [] => []
  | f, a :: rest => (step args f a).1 :: outLines args (step args f a).2 rest

/-- Whether the loop from `f` on rewrites some line. -/
def anyChanged (args : List Line) : lineFunc → List Line → Bool
  | _, [] => false
  | f, a :: rest =>
    ((step args f a).1 != a) || anyChanged args (step args f a).2 rest

/-! ## Basic facts -/

theorem whitePreffixLoop_eq (l : Line) (i : Nat) :
    whitePreffixLoop (i + l.length) i l = i + (l.takeWhile blank).length := by
  induction l generalizing i with
  | nil => simp [whitePreffixLoop]
  | cons c rest ih =>
    by_cases hc : blank c = true
    · have hc2 : (c != '\t' && c != ' ') = false := by
        simp only [blank, Bool.or_eq_true, beq_iff_eq] at hc
        rcases hc with h | h <;> subst h <;> decide
      have := ih (i + 1)
      simp only [whitePreffixLoop, hc2, List.length_cons, List.takeWhile_cons, hc, if_true]
      rw [show i + (rest.length + 1) = i + 1 + rest.length by omega, this]
      simp; omega
    · have hc2 : (c != '\t' && c != ' ') = true := by
        simp only [blank, Bool.or_eq_true, beq_iff_eq, not_or] at hc
        simp [hc.1, hc.2]
      simp [whitePreffixLoop, hc2, List.takeWhile_cons, hc]

theorem whitePreffix_eq (l : Line) : whitePreffix l = (blanksOf l).length := by
  have := whitePreffixLoop_eq l 0
  simpa [whitePreffix, len, blanksOf] using this

theorem whitePreffix_le (l : Line) : whitePreffix l ≤ l.length := by
  rw [whitePreffix_eq]
  exact (List.takeWhile_sublist _).length_le

theorem drop_whitePreffix (l : Line) : l.drop (whitePreffix l) = afterBlanks l := by
  rw [whitePreffix_eq, blanksOf, afterBlanks]
  have h : (l.takeWhile blank ++ l.dropWhile blank).drop (l.takeWhile blank).length
      = l.dropWhile blank := List.drop_left' rfl
  rwa [List.takeWhile_append_dropWhile] at h

theorem take_whitePreffix (l : Line) : l.take (whitePreffix l) = blanksOf l := by
  rw [whitePreffix_eq, blanksOf]
  have h : (l.takeWhile blank ++ l.dropWhile blank).take (l.takeWhile blank).length
      = l.takeWhile blank := List.take_left' rfl
  rwa [List.takeWhile_append_dropWhile] at h

theorem blanksOf_append_afterBlanks (l : Line) : blanksOf l ++ afterBlanks l = l :=
  List.takeWhile_append_dropWhile blank l

theorem hasPrefix_eq (s pre : Line) :
    hasPrefix s pre = (s.take pre.length == pre) := by
  unfold hasPrefix len
  by_cases h : pre.length ≤ s.length
  · simp [h]
  · have : s.take pre.length ≠ pre := by
      intro e
      have := congrArg List.length e
      simp at this
      omega
    simp [h, this]

theorem hasPrefix_afterBlanks (l pre : Line) :
    hasPrefix (afterBlanks l) pre = beginsWith l pre := by
  rw [hasPrefix_eq, beginsWith]

theorem beginsWith_iff (l pre : Line) :
    beginsWith l pre = true ↔ ∃ r, afterBlanks l = pre ++ r := by
  unfold beginsWith
  constructor
  · intro h
    refine ⟨(afterBlanks l).drop pre.length, ?_⟩
    have h2 : (afterBlanks l).take pre.length = pre := by simpa using h
    conv_lhs => rw [← List.take_append_drop pre.length (afterBlanks l)]
    rw [h2]
  · rintro ⟨r, hr⟩
    simp [hr]

theorem length_eq_white_add (l : Line) :
    l.length = whitePreffix l + (afterBlanks l).length := by
  conv_lhs => rw [← blanksOf_append_afterBlanks l]
  rw [List.length_append, whitePreffix_eq]

theorem sliceFrom_white (l : Line) :
    sliceFrom l (whitePreffix l) = some (afterBlanks l) := by
  simp [sliceFrom, len, whitePreffix_le, drop_whitePreffix]

theorem sliceTo_white (l : Line) :
    sliceTo l (whitePreffix l) = some (blanksOf l) := by
  simp [sliceTo, len, whitePreffix_le, take_whitePreffix]

theorem length_of_beginsWith {l pre : Line} (h : beginsWith l pre = true) :
    pre.length ≤ (afterBlanks l).length := by
  obtain ⟨r, hr⟩ := (beginsWith_iff l pre).1 h
  simp [hr]

theorem read_eq_step (args : List Line) (l : Line) :
    read args l = some (step args lineFunc.read l) := by
  unfold read step
  simp only [sliceFrom_white, hasPrefix_afterBlanks, Option.bind_eq_bind, Option.some_bind,
    Option.pure_def]
  by_cases h : beginsWith l preprocessorStart = true
  · have hlen := length_of_beginsWith h
    have h6 : preprocessorStart.length = 6 := rfl
    have hs : sliceFrom l (whitePreffix l + len preprocessorStart)
        = some ((afterBlanks l).drop 6) := by
      have := length_eq_white_add l
      simp only [sliceFrom, len, h6]
      rw [if_pos (by omega), ← drop_whitePreffix, List.drop_drop]
    simp only [h, if_true, hs, Option.some_bind]
    by_cases ha : hasArgument args ((afterBlanks l).drop 6) = true <;> simp [ha]
  · simp [h]

theorem comment_eq_step (args : List Line) (l : Line) :
    comment l = some (step args lineFunc.comment l) := by
  unfold comment step
  simp only [sliceFrom_white, sliceTo_white, hasPrefix_afterBlanks, Option.bind_eq_bind,
    Option.some_bind, Option.pure_def]
  by_cases h : beginsWith l preprocessorEnd = true
  · simp [h]
  · by_cases h2 : beginsWith l commentStart = true <;> simp [h, h2]

theorem unComment_eq_step (args : List Line) (l : Line) :
    unComment l = some (step args lineFunc.unComment l) := by
  unfold unComment step
  simp only [sliceFrom_white, sliceTo_white, hasPrefix_afterBlanks, Option.bind_eq_bind,
    Option.some_bind, Option.pure_def]
  by_cases h : beginsWith l preprocessorEnd = true
  · simp [h]
  · by_cases h2 : beginsWith l commentStart = true
    · have hlen := length_of_beginsWith h2
      have h2l : commentStart.length = 2 := rfl
      have hs : sliceFrom (afterBlanks l) 2 = some ((afterBlanks l).drop 2) := by
        simp only [sliceFrom, len]
        rw [if_pos (by omega)]
      simp [h, h2, hs]
    · simp [h, h2]

theorem call_eq_step (args : List Line) (f : lineFunc) (l : Line) :
    call args f l = some (step args f l) := by
  cases f
  · exact read_eq_step args l
  · exact comment_eq_step args l
  · exact unComment_eq_step args l

theorem lineLoop_eq (args : List Line) (ls : List Line) (f : lineFunc)
    (buffer : List Line) (changed : Bool) :
    lineLoop args ls f buffer changed
      = some (buffer ++ outLines args f ls, changed || anyChanged args f ls) := by
  induction ls generalizing f buffer changed with
  | nil => simp [lineLoop, outLines, anyChanged]
  | cons a rest ih =>
    simp only [lineLoop, call_eq_step, ih, outLines, anyChanged]
    by_cases h : (step args f a).1 = a
    · simp [h]
    · cases changed <;> simp [h]

theorem processLines_eq (args : List Line) (ls : List Line) :
    processLines args ls
      = some (outLines args lineFunc.read ls, anyChanged args lineFunc.read ls) := by
  simp [processLines, lineLoop_eq]

theorem hasArgument_iff (args : List Line) (arg : Line) :
    hasArgument args arg = true ↔ arg ∈ args := by
  induction args with
  | nil => simp [hasArgument]
  | cons l rest ih =>
    unfold hasArgument
    by_cases h : arg = l
    · simp [h]
    · simp [h, ih]

theorem afterBlanks_append {w : Line} (hw : onlyBlanks w = true) (rest : Line) :
    afterBlanks (w ++ rest) = afterBlanks rest := by
  induction w with
  | nil => rfl
  | cons c w ih =>
    simp only [onlyBlanks, List.all_cons, Bool.and_eq_true] at hw
    have := ih (by simpa [onlyBlanks] using hw.2)
    simpa [afterBlanks, List.dropWhile_cons, hw.1] using this

theorem blanksOf_append {w : Line} (hw : onlyBlanks w = true) (rest : Line) :
    blanksOf (w ++ rest) = w ++ blanksOf rest := by
  induction w with
  | nil => rfl
  | cons c w ih =>
    simp only [onlyBlanks, List.all_cons, Bool.and_eq_true] at hw
    have := ih (by simpa [onlyBlanks] using hw.2)
    simpa [blanksOf, List.takeWhile_cons, hw.1] using this

theorem onlyBlanks_blanksOf (l : Line) : onlyBlanks (blanksOf l) = true := by
  simp only [onlyBlanks, blanksOf, List.all_eq_true]
  intro c hc
  exact (List.mem_takeWhile_imp hc)

theorem afterBlanks_slash (r : Line) : afterBlanks ('/' :: r) = '/' :: r := by
  have : blank '/' = false := by decide
  simp [afterBlanks, List.dropWhile_cons, this]

theorem blanksOf_slash (r : Line) : blanksOf ('/' :: r) = [] := by
  have : blank '/' = false := by decide
  simp [blanksOf, List.takeWhile_cons, this]

theorem afterBlanks_idem (l : Line) : afterBlanks (afterBlanks l) = afterBlanks l := by
  unfold afterBlanks
  induction l with
  | nil => rfl
  | cons c l ih =>
    by_cases hc : blank c = true
    · simpa [List.dropWhile_cons, hc] using ih
    · simp [List.dropWhile_cons, hc]

theorem beginsWith_end_start {l : Line} (h : beginsWith l preprocessorEnd = true) :
    beginsWith l preprocessorStart = false := by
  obtain ⟨r, hr⟩ := (beginsWith_iff l _).1 h
  simp [beginsWith, hr, preprocessorEnd, preprocessorStart]

theorem beginsWith_end_comment {l : Line} (h : beginsWith l preprocessorEnd = true) :
    beginsWith l commentStart = true := by
  obtain ⟨r, hr⟩ := (beginsWith_iff l _).1 h
  simp [beginsWith, hr, preprocessorEnd, commentStart]

theorem beginsWith_start_comment {l : Line} (h : beginsWith l preprocessorStart = true) :
    beginsWith l commentStart = true := by
  obtain ⟨r, hr⟩ := (beginsWith_iff l _).1 h
  simp [beginsWith, hr, preprocessorStart, commentStart]

theorem beginsWith_start_end {l : Line} (h : beginsWith l preprocessorStart = true) :
    beginsWith l preprocessorEnd = false := by
  cases h2 : beginsWith l preprocessorEnd
  · rfl
  · rw [beginsWith_end_start h2] at h
    cases h

/-! ## Directive lines -/

/-- C5, as stated, fails in `unComment` mode: the start directive `//#if x`
begins with the comment marker and is not an end directive, so `unComment`
strips the marker and returns `#if x`. -/
theorem unComment_rewrites_start_directive :
    beginsWith "//#if x".toList preprocessorStart = true ∧
    call [] lineFunc.unComment "//#if x".toList
      = some ("#if x".toList, lineFunc.unComment) ∧
    "#if x".toList ≠ "//#if x".toList := by
  decide

/-- C5 (amended): a line whose content after leading spaces/tabs begins with
`//#if ` is returned unchanged by `read` (for every tag set) and by `comment`;
`unComment` returns it without the two characters `//` that follow its leading
spaces/tabs. -/
theorem start_directive_line (args : List Line) (line : Line)
    (h : beginsWith line preprocessorStart = true) :
    (∃ f, read args line = some (line, f)) ∧
    comment line = some (line, lineFunc.comment) ∧
    unComment line
      = some (blanksOf line ++ (afterBlanks line).drop 2, lineFunc.unComment) := by
  have hc := beginsWith_start_comment h
  have he := beginsWith_start_end h
  refine ⟨?_, ?_, ?_⟩
  · rw [read_eq_step]
    simp only [step, h, if_true]
    by_cases ha : hasArgument args ((afterBlanks line).drop 6) = true
    · exact ⟨lineFunc.unComment, by simp [ha]⟩
    · exact ⟨lineFunc.comment, by simp [ha]⟩
  · rw [comment_eq_step args]
    simp [step, hc, he]
  · rw [unComment_eq_step args]
    simp [step, hc, he]

/-- Witness for C5 (amended): the tab-indented directive `//#if x`, tag set `{x}`. -/
theorem start_directive_line_witness :
    beginsWith "\t//#if x".toList preprocessorStart = true ∧
    ((∃ f, read ["x".toList] "\t//#if x".toList = some ("\t//#if x".toList, f)) ∧
    comment "\t//#if x".toList = some ("\t//#if x".toList, lineFunc.comment) ∧
    unComment "\t//#if x".toList
      = some (blanksOf "\t//#if x".toList ++ (afterBlanks "\t//#if x".toList).drop 2,
          lineFunc.unComment)) :=
  ⟨by decide, start_directive_line ["x".toList] "\t//#if x".toList (by decide)⟩

/-- C6: for each of the three modes, a line whose content after leading
spaces/tabs begins with `//#endif` is returned unchanged and the next mode is
`read`. -/
theorem end_directive_line (args : List Line) (f : lineFunc) (line : Line)
    (h : beginsWith line preprocessorEnd = true) :
    call args f line = some (line, lineFunc.read) := by
  rw [call_eq_step]
  cases f
  · simp [step, beginsWith_end_start h]
  · simp [step, h]
  · simp [step, h]

/-- Witness for C6: an indented `//#endif` with trailing text, in `unComment` mode. -/
theorem end_directive_line_witness :
    beginsWith "  //#endif // debug".toList preprocessorEnd = true ∧
    call [] lineFunc.unComment "  //#endif // debug".toList
      = some ("  //#endif // debug".toList, lineFunc.read) :=
  ⟨by decide, end_directive_line [] lineFunc.unComment "  //#endif // debug".toList (by decide)⟩

/-- C7: a line whose content after leading spaces/tabs begins with `//` is
returned unchanged by `comment`; the next mode is `comment`, unless the content
begins with `//#endif`, in which case it is `read`. -/
theorem comment_no_double_marker (line : Line)
    (h : beginsWith line commentStart = true) :
    comment line = some (line,
      if beginsWith line preprocessorEnd then lineFunc.read else lineFunc.comment) := by
  rw [comment_eq_step []]
  by_cases he : beginsWith line preprocessorEnd = true
  · simp [step, he]
  · simp [step, he, h]

/-- Witness for C7: the already commented line ` //println(1)`. -/
theorem comment_no_double_marker_witness :
    beginsWith " //println(1)".toList commentStart = true ∧
    comment " //println(1)".toList = some (" //println(1)".toList,
      if beginsWith " //println(1)".toList preprocessorEnd then lineFunc.read
      else lineFunc.comment) :=
  ⟨by decide, comment_no_double_marker " //println(1)".toList (by decide)⟩

/-! ## Dispatch on the start directive -/

theorem exists_form_of_beginsWith {line pre : Line} (h : beginsWith line pre = true) :
    ∃ w r, onlyBlanks w = true ∧ line = w ++ pre ++ r := by
  obtain ⟨r, hr⟩ := (beginsWith_iff line pre).1 h
  refine ⟨blanksOf line, r, onlyBlanks_blanksOf line, ?_⟩
  rw [List.append_assoc, ← hr, blanksOf_append_afterBlanks]

/-- C9: on a line `w ++ "//#if " ++ r` with `w` made of spaces and tabs only,
`read` returns the line unchanged and the next mode is `unComment` if `r`, the
whole remainder of the line, is an element of the tag set, and `comment`
otherwise; on a line that is not of that form `read` returns the line unchanged
and the next mode is `read`. -/
theorem read_dispatch (args : List Line) :
    (∀ w r : Line, onlyBlanks w = true →
      read args (w ++ preprocessorStart ++ r)
        = some (w ++ preprocessorStart ++ r,
            if r ∈ args then lineFunc.unComment else lineFunc.comment)) ∧
    (∀ line : Line,
      (¬ ∃ w r : Line, onlyBlanks w = true ∧ line = w ++ preprocessorStart ++ r) →
      read args line = some (line, lineFunc.read)) := by
  constructor
  · intro w r hw
    have ha : afterBlanks (w ++ preprocessorStart ++ r) = preprocessorStart ++ r := by
      rw [List.append_assoc, afterBlanks_append hw]
      exact afterBlanks_slash _
    have hb : beginsWith (w ++ preprocessorStart ++ r) preprocessorStart = true :=
      (beginsWith_iff _ _).2 ⟨r, ha⟩
    have hd : (preprocessorStart ++ r).drop 6 = r := rfl
    rw [read_eq_step]
    simp only [step, hb, if_true, ha, hd]
    by_cases hr : r ∈ args
    · simp [hr, (hasArgument_iff args r).2 hr]
    · have : hasArgument args r = false := by
        cases h : hasArgument args r
        · rfl
        · exact absurd ((hasArgument_iff args r).1 h) hr
      simp [hr, this]
  · intro line hline
    have hb : beginsWith line preprocessorStart = false := by
      cases h : beginsWith line preprocessorStart
      · rfl
      · exact absurd (exists_form_of_beginsWith h) hline
    rw [read_eq_step]
    simp [step, hb]

/-- Witness for C9: the directive `//#if x` behind two tabs, tag set `{x, debug}`. -/
theorem read_dispatch_witness :
    onlyBlanks "\t\t".toList = true ∧
    read ["x".toList, "debug".toList] ("\t\t".toList ++ preprocessorStart ++ "x".toList)
      = some ("\t\t".toList ++ preprocessorStart ++ "x".toList,
          if "x".toList ∈ ["x".toList, "debug".toList] then lineFunc.unComment
          else lineFunc.comment) :=
  ⟨by decide, (read_dispatch ["x".toList, "debug".toList]).1 "\t\t".toList "x".toList
    (by decide)⟩

/-! ## Removing the marker -/

/-- C10: on a line `w ++ "//" ++ r`, with `w` made of spaces and tabs only,
whose content does not begin with `//#endif`, `unComment` returns `w ++ r`,
which is two characters shorter than the line, and the next mode is
`unComment`. -/
theorem unComment_removes_marker (w r : Line) (hw : onlyBlanks w = true)
    (he : beginsWith (w ++ commentStart ++ r) preprocessorEnd = false) :
    unComment (w ++ commentStart ++ r) = some (w ++ r, lineFunc.unComment) ∧
    len (w ++ r) + 2 = len (w ++ commentStart ++ r) := by
  have ha : afterBlanks (w ++ commentStart ++ r) = commentStart ++ r := by
    rw [List.append_assoc, afterBlanks_append hw]
    exact afterBlanks_slash _
  have hb : blanksOf (w ++ commentStart ++ r) = w := by
    rw [List.append_assoc, blanksOf_append hw]
    simp [commentStart, blanksOf_slash]
  have hc : beginsWith (w ++ commentStart ++ r) commentStart = true :=
    (beginsWith_iff _ _).2 ⟨r, ha⟩
  have hd : (commentStart ++ r).drop 2 = r := rfl
  constructor
  · rw [unComment_eq_step []]
    simp only [step, he, hc, ha, hb, hd, if_true, Bool.false_eq_true, if_false]
  · simp [len, commentStart]
    omega

/-- Witness for C10: the line `//` followed by ` println(1)`, behind a tab and a space. -/
theorem unComment_removes_marker_witness :
    onlyBlanks "\t ".toList = true ∧
    beginsWith ("\t ".toList ++ commentStart ++ " println(1)".toList) preprocessorEnd = false ∧
    unComment ("\t ".toList ++ commentStart ++ " println(1)".toList)
      = some ("\t ".toList ++ " println(1)".toList, lineFunc.unComment) ∧
    len ("\t ".toList ++ " println(1)".toList) + 2
      = len ("\t ".toList ++ commentStart ++ " println(1)".toList) :=
  ⟨by decide, by decide,
    unComment_removes_marker "\t ".toList " println(1)".toList (by decide) (by decide)⟩

/-! ## The line loop: one output line per input line -/

theorem step_rewriteOf (args : List Line) (f : lineFunc) (a : Line) :
    rewriteOf a (step args f a).1 := by
  cases f
  · left
    simp only [step]
    split_ifs <;> rfl
  · simp only [step]
    split_ifs
    · left; rfl
    · left; rfl
    · right; left; rfl
  · simp only [step]
    split_ifs with h1 h2
    · left; rfl
    · right; right
      refine ⟨?_, rfl⟩
      simpa [beginsWith, commentStart] using h2
    · left; rfl

theorem outLines_length (args : List Line) (f : lineFunc) (ls : List Line) :
    (outLines args f ls).length = ls.length := by
  induction ls generalizing f with
  | nil => rfl
  | cons a rest ih => simp [outLines, ih]

theorem outLines_getElem (args : List Line) (f : lineFunc) (ls : List Line)
    (i : Nat) (hi : i < ls.length) :
    ∃ g, (outLines args f ls)[i]? = some (step args g ls[i]).1 := by
  induction ls generalizing f i with
  | nil => simp at hi
  | cons a rest ih =>
    cases i with
    | zero => exact ⟨f, by simp [outLines]⟩
    | succ j =>
      have hj : j < rest.length := by simpa using hi
      obtain ⟨g, hg⟩ := ih (step args f a).2 j hj
      exact ⟨g, by simpa [outLines] using hg⟩

/-- C4: for every tag set and every list of input lines the line loop returns
a list of the same length, and for every index `i` the `i`-th output line is
the `i`-th input line itself, or that line with `//` inserted right after its
leading spaces/tabs, or that line without the two characters `//` that follow
its leading spaces/tabs. -/
theorem line_count_and_order (args : List Line) (ls : List Line) :
    ∃ out changed, processLines args ls = some (out, changed) ∧
      out.length = ls.length ∧
      ∀ (i : Nat) (hi : i < ls.length), ∃ b, out[i]? = some b ∧ rewriteOf ls[i] b := by
  refine ⟨_, _, processLines_eq args ls, outLines_length _ _ _, ?_⟩
  intro i hi
  obtain ⟨g, hg⟩ := outLines_getElem args lineFunc.read ls i hi
  exact ⟨_, hg, step_rewriteOf args g _⟩

/-! ## Files without a start directive -/

theorem outLines_read_of_no_start (args : List Line) (ls : List Line)
    (h : ∀ l ∈ ls, beginsWith l preprocessorStart = false) :
    outLines args lineFunc.read ls = ls ∧ anyChanged args lineFunc.read ls = false := by
  induction ls with
  | nil => exact ⟨rfl, rfl⟩
  | cons a rest ih =>
    have ha : step args lineFunc.read a = (a, lineFunc.read) := by
      simp [step, h a (List.mem_cons_self a rest)]
    have := ih (fun l hl => h l (List.mem_cons_of_mem a hl))
    simp [outLines, anyChanged, ha, this.1, this.2]

/-- C8: for every tag set and every file in which no line begins, after its
leading spaces/tabs, with `//#if `, the line loop returns exactly the input
lines with the changed flag false, and `processFile` returns without writing
the file. -/
theorem no_start_directive_no_rewrite (args : List Line) (ls : List Line)
    (h : ∀ l ∈ ls, beginsWith l preprocessorStart = false) :
    processLines args ls = some (ls, false) ∧
    ∀ name : Line, processFile args name ls = some none := by
  have hp : processLines args ls = some (ls, false) := by
    rw [processLines_eq, (outLines_read_of_no_start args ls h).1,
      (outLines_read_of_no_start args ls h).2]
  refine ⟨hp, fun name => ?_⟩
  unfold processFile
  split_ifs <;> simp [hp]

/-- Witness for C8: a file whose lines mention `#if` but never begin with `//#if `. -/
theorem no_start_directive_no_rewrite_witness :
    (∀ l ∈ ["package main".toList, "//#endif".toList, "x := 1 //#if debug".toList,
        "// #if debug".toList], beginsWith l preprocessorStart = false) ∧
    (processLines ["debug".toList] ["package main".toList, "//#endif".toList,
        "x := 1 //#if debug".toList, "// #if debug".toList]
      = some (["package main".toList, "//#endif".toList, "x := 1 //#if debug".toList,
        "// #if debug".toList], false) ∧
    ∀ name : Line, processFile ["debug".toList] name ["package main".toList,
        "//#endif".toList, "x := 1 //#if debug".toList, "// #if debug".toList]
      = some none) :=
  ⟨by decide, no_start_directive_no_rewrite ["debug".toList] _ (by decide)⟩

/-! ## Running the loop twice -/

theorem beginsWith_append {w : Line} (hw : onlyBlanks w = true) (r pre : Line) :
    beginsWith (w ++ r) pre = beginsWith r pre := by
  simp only [beginsWith, afterBlanks_append hw]

theorem step_end (args : List Line) (f : lineFunc) {l : Line}
    (h : beginsWith l preprocessorEnd = true) : step args f l = (l, lineFunc.read) := by
  cases f
  · simp [step, beginsWith_end_start h]
  · simp [step, h]
  · simp [step, h]

theorem step_read_fst (args : List Line) (l : Line) :
    (step args lineFunc.read l).1 = l := by
  simp only [step]
  split_ifs <;> rfl

theorem not_end_of_not_comment {l : Line} (h : beginsWith l commentStart = false) :
    beginsWith l preprocessorEnd = false := by
  cases he : beginsWith l preprocessorEnd
  · rfl
  · rw [beginsWith_end_comment he] at h
    cases h

theorem beginsWith_commented (l : Line) :
    beginsWith (blanksOf l ++ commentStart ++ afterBlanks l) commentStart = true ∧
    beginsWith (blanksOf l ++ commentStart ++ afterBlanks l) preprocessorEnd
      = beginsWith l bareEnd := by
  have ha : afterBlanks (commentStart ++ afterBlanks l) = commentStart ++ afterBlanks l :=
    afterBlanks_slash _
  constructor
  · rw [List.append_assoc, beginsWith_append (onlyBlanks_blanksOf l)]
    exact (beginsWith_iff _ _).2 ⟨_, ha⟩
  · rw [List.append_assoc, beginsWith_append (onlyBlanks_blanksOf l)]
    have ht : (commentStart ++ afterBlanks l).take 8
        = commentStart ++ (afterBlanks l).take 6 := rfl
    have hp : preprocessorEnd = commentStart ++ bareEnd := rfl
    simp only [beginsWith, ha, afterBlanks_idem]
    rw [show preprocessorEnd.length = 8 from rfl, show bareEnd.length = 6 from rfl, ht, hp]
    by_cases h : (afterBlanks l).take 6 = bareEnd
    · simp [h]
    · simp [h]

theorem step_comment_insert (args : List Line) {l : Line}
    (h : beginsWith l commentStart = false) :
    step args lineFunc.comment l
      = (blanksOf l ++ commentStart ++ afterBlanks l, lineFunc.comment) := by
  simp [step, h, not_end_of_not_comment h]

theorem step_unComment_remove (args : List Line) {l : Line}
    (hc : beginsWith l commentStart = true) (he : beginsWith l preprocessorEnd = false) :
    step args lineFunc.unComment l = (blanksOf l ++ afterMarker l, lineFunc.unComment) := by
  simp [step, hc, he, afterMarker]

theorem step_fixed (args : List Line) (f : lineFunc) (l : Line)
    (ha : beginsWith l bareEnd = false)
    (hb : beginsWith l commentStart = true → beginsWith (afterMarker l) commentStart = false) :
    step args f (step args f l).1 = ((step args f l).1, (step args f l).2) := by
  cases f
  · rw [step_read_fst]
    exact Prod.ext (step_read_fst args l) rfl
  · by_cases he : beginsWith l preprocessorEnd = true
    · simp [step, he]
    · by_cases hc : beginsWith l commentStart = true
      · simp [step, he, hc]
      · simp only [Bool.not_eq_true] at hc
        rw [step_comment_insert args hc]
        simp only [step, (beginsWith_commented l).1, (beginsWith_commented l).2, ha]
        simp
  · by_cases he : beginsWith l preprocessorEnd = true
    · simp [step, he]
    · simp only [Bool.not_eq_true] at he
      by_cases hc : beginsWith l commentStart = true
      · rw [step_unComment_remove args hc he]
        have h1 : beginsWith (blanksOf l ++ afterMarker l) commentStart = false := by
          rw [beginsWith_append (onlyBlanks_blanksOf l)]
          exact hb hc
        simp [step, h1, not_end_of_not_comment h1]
      · simp [step, he, hc]

theorem outLines_fixed (args : List Line) (f : lineFunc) (ls : List Line)
    (ha : ∀ l ∈ ls, beginsWith l bareEnd = false)
    (hb : ∀ l ∈ ls, beginsWith l commentStart = true →
      beginsWith (afterMarker l) commentStart = false) :
    outLines args f (outLines args f ls) = outLines args f ls ∧
    anyChanged args f (outLines args f ls) = false := by
  induction ls generalizing f with
  | nil => exact ⟨rfl, rfl⟩
  | cons a rest ih =>
    have hs := step_fixed args f a (ha a (List.mem_cons_self a rest))
      (hb a (List.mem_cons_self a rest))
    have := ih (step args f a).2 (fun l hl => ha l (List.mem_cons_of_mem a hl))
      (fun l hl => hb l (List.mem_cons_of_mem a hl))
    simp only [outLines, anyChanged, hs, this.1, this.2]
    simp

/-- C1, as stated, fails: with the tag `debug`, the file `//#if debug`, `////x`
is rewritten to `//#if debug`, `//x`, and a second run with the same tag
rewrites that output again, to `//#if debug`, `x`, with the changed flag
true. -/
theorem rerun_same_tags_changes :
    processLines ["debug".toList] ["//#if debug".toList, "////x".toList]
      = some (["//#if debug".toList, "//x".toList], true) ∧
    processLines ["debug".toList] ["//#if debug".toList, "//x".toList]
      = some (["//#if debug".toList, "x".toList], true) := by
  decide

/-- C1 (amended): for every tag set and every list of lines in which no line
begins, after its leading spaces/tabs, with `#endif`, and no line that begins
with `//` has, after that marker and further spaces/tabs, a second `//`,
running the line loop with the same tag set on its own output returns that
output unchanged, with the changed flag false. -/
theorem rerun_same_tags_fixed (args : List Line) (ls : List Line)
    (ha : ∀ l ∈ ls, beginsWith l bareEnd = false)
    (hb : ∀ l ∈ ls, beginsWith l commentStart = true →
      beginsWith (afterMarker l) commentStart = false) :
    ∃ out changed, processLines args ls = some (out, changed) ∧
      processLines args out = some (out, false) := by
  refine ⟨_, _, processLines_eq args ls, ?_⟩
  rw [processLines_eq, (outLines_fixed args _ ls ha hb).1, (outLines_fixed args _ ls ha hb).2]

/-- Witness for C1 (amended): an active block followed by an unterminated inactive block. -/
theorem rerun_same_tags_fixed_witness :
    (∀ l ∈ ["//#if debug".toList, "\t// x".toList, "//#endif".toList, "//#if prod".toList,
        "y()".toList], beginsWith l bareEnd = false) ∧
    (∀ l ∈ ["//#if debug".toList, "\t// x".toList, "//#endif".toList, "//#if prod".toList,
        "y()".toList], beginsWith l commentStart = true →
      beginsWith (afterMarker l) commentStart = false) ∧
    ∃ out changed, processLines ["debug".toList] ["//#if debug".toList, "\t// x".toList,
        "//#endif".toList, "//#if prod".toList, "y()".toList] = some (out, changed) ∧
      processLines ["debug".toList] out = some (out, false) :=
  ⟨by decide, by decide, rerun_same_tags_fixed ["debug".toList] _ (by decide) (by decide)⟩

/-! ## One block, toggled twice -/

theorem outLines_block (args : List Line) (f : lineFunc) (g : Line → Line)
    (body rest : List Line) (h : ∀ l ∈ body, step args f l = (g l, f)) :
    outLines args f (body ++ rest) = body.map g ++ outLines args f rest := by
  induction body with
  | nil => rfl
  | cons a body ih =>
    have := ih (fun l hl => h l (List.mem_cons_of_mem a hl))
    simp [outLines, h a (List.mem_cons_self a body), this]

theorem mem_map_block {g : Line → Line} {body : List Line} {P : Line → Prop}
    (h : ∀ l ∈ body, P (g l)) : ∀ m ∈ body.map g, P m := by
  intro m hm
  obtain ⟨l, hl, rfl⟩ := List.mem_map.1 hm
  exact h l hl

theorem map_map_block {g k : Line → Line} {body : List Line}
    (h : ∀ l ∈ body, k (g l) = l) : (body.map g).map k = body := by
  rw [List.map_map]
  conv_rhs => rw [← List.map_id body]
  exact List.map_congr_left (fun l hl => h l hl)

theorem step_read_start (args : List Line) (t : Line) :
    step args lineFunc.read (preprocessorStart ++ t)
      = (preprocessorStart ++ t,
          if hasArgument args t then lineFunc.unComment else lineFunc.comment) := by
  have ha : afterBlanks (preprocessorStart ++ t) = preprocessorStart ++ t :=
    afterBlanks_slash _
  have hb : beginsWith (preprocessorStart ++ t) preprocessorStart = true :=
    (beginsWith_iff _ _).2 ⟨t, ha⟩
  have hd : (preprocessorStart ++ t).drop 6 = t := rfl
  simp only [step, hb, if_true, ha, hd]
  cases hasArgument args t <;> simp

theorem beginsWith_end_self : beginsWith preprocessorEnd preprocessorEnd = true := by
  decide

/-- The lines written for a file made of a start directive, a body on which
`f`, the mode chosen by the directive, stays `f`, and the end directive. -/
theorem outLines_one_block (args : List Line) (t : Line) (f : lineFunc)
    (g : Line → Line) (body : List Line)
    (hf : (if hasArgument args t then lineFunc.unComment else lineFunc.comment) = f)
    (h : ∀ l ∈ body, step args f l = (g l, f)) :
    outLines args lineFunc.read ([preprocessorStart ++ t] ++ body ++ [preprocessorEnd])
      = [preprocessorStart ++ t] ++ body.map g ++ [preprocessorEnd] := by
  have h1 : outLines args f (body ++ [preprocessorEnd])
      = body.map g ++ [preprocessorEnd] := by
    rw [outLines_block args f g body _ h]
    simp [outLines, step_end args f beginsWith_end_self]
  show outLines args lineFunc.read ((preprocessorStart ++ t) :: (body ++ [preprocessorEnd]))
    = (preprocessorStart ++ t) :: (body.map g ++ [preprocessorEnd])
  simp only [outLines, step_read_start, hf, h1]

theorem hasArgument_self (t : Line) : hasArgument [t] t = true := by
  simp [hasArgument]

theorem hasArgument_nil (t : Line) : hasArgument [] t = false := rfl

/-- C2, as stated, fails: the body line `// x` begins with `//` and not with
`//#endif`; the run with the tag `debug` strips the marker and leaves ` x`,
and the run with no tag then inserts the marker after the leading space,
giving ` //x` and not `// x`. -/
theorem uncomment_then_comment_differs :
    beginsWith "// x".toList commentStart = true ∧
    beginsWith "// x".toList preprocessorEnd = false ∧
    processLines ["debug".toList] ["//#if debug".toList, "// x".toList, "//#endif".toList]
      = some (["//#if debug".toList, " x".toList, "//#endif".toList], true) ∧
    processLines [] ["//#if debug".toList, " x".toList, "//#endif".toList]
      = some (["//#if debug".toList, " //x".toList, "//#endif".toList], true) ∧
    ["//#if debug".toList, " //x".toList, "//#endif".toList]
      ≠ ["//#if debug".toList, "// x".toList, "//#endif".toList] := by
  decide

/-- C2 (amended): for every tag `T` and every file made of the start directive
`//#if T`, a body of lines each of which begins, after leading spaces/tabs,
with `//` but not with `//#endif`, and in each of which the marker `//` is
followed neither by a space or a tab nor by a second `//`, and a closing
`//#endif` line, running the line loop with the tag set `{T}` and then on that
result with the empty tag set yields the original file. -/
theorem uncomment_then_comment (t : Line) (body : List Line)
    (h1 : ∀ l ∈ body, beginsWith l commentStart = true)
    (h2 : ∀ l ∈ body, beginsWith l preprocessorEnd = false)
    (h3 : ∀ l ∈ body, blanksOf (afterMarker l) = [])
    (h4 : ∀ l ∈ body, beginsWith (afterMarker l) commentStart = false) :
    ∃ mid c1 c2,
      processLines [t] ([preprocessorStart ++ t] ++ body ++ [preprocessorEnd])
        = some (mid, c1) ∧
      processLines [] mid
        = some ([preprocessorStart ++ t] ++ body ++ [preprocessorEnd], c2) := by
  let g : Line → Line := fun l => blanksOf l ++ afterMarker l
  let k : Line → Line := fun m => blanksOf m ++ commentStart ++ afterBlanks m
  have hrun1 := outLines_one_block [t] t lineFunc.unComment g body
    (by simp [hasArgument_self])
    (fun l hl => step_unComment_remove [t] (h1 l hl) (h2 l hl))
  have hmid : ∀ l ∈ body, beginsWith (g l) commentStart = false := by
    intro l hl
    show beginsWith (blanksOf l ++ afterMarker l) commentStart = false
    rw [beginsWith_append (onlyBlanks_blanksOf l)]
    exact h4 l hl
  have hrun2 := outLines_one_block [] t lineFunc.comment k (body.map g)
    (by simp [hasArgument_nil])
    (mem_map_block (P := fun m => step [] lineFunc.comment m = (k m, lineFunc.comment))
      (fun l hl => step_comment_insert [] (hmid l hl)))
  have hback : ∀ l ∈ body, k (g l) = l := by
    intro l hl
    have hr : afterBlanks (afterMarker l) = afterMarker l := by
      have := blanksOf_append_afterBlanks (afterMarker l)
      rwa [h3 l hl, List.nil_append] at this
    have hbl : blanksOf (g l) = blanksOf l := by
      show blanksOf (blanksOf l ++ afterMarker l) = blanksOf l
      rw [blanksOf_append (onlyBlanks_blanksOf l), h3 l hl, List.append_nil]
    have haf : afterBlanks (g l) = afterMarker l := by
      show afterBlanks (blanksOf l ++ afterMarker l) = afterMarker l
      rw [afterBlanks_append (onlyBlanks_blanksOf l), hr]
    obtain ⟨r, hr2⟩ := (beginsWith_iff l commentStart).1 (h1 l hl)
    show blanksOf (g l) ++ commentStart ++ afterBlanks (g l) = l
    rw [hbl, haf, afterMarker, hr2]
    have : (commentStart ++ r).drop 2 = r := rfl
    rw [this, List.append_assoc, ← hr2, blanksOf_append_afterBlanks]
  have e1 := processLines_eq [t] ([preprocessorStart ++ t] ++ body ++ [preprocessorEnd])
  rw [hrun1] at e1
  have e2 := processLines_eq [] ([preprocessorStart ++ t] ++ body.map g ++ [preprocessorEnd])
  rw [hrun2, map_map_block hback] at e2
  exact ⟨_, _, _, e1, e2⟩

/-- Witness for C2 (amended): a body of two commented lines, one of them the bare marker. -/
theorem uncomment_then_comment_witness :
    (∀ l ∈ ["\t//println(1)".toList, "//".toList], beginsWith l commentStart = true) ∧
    (∀ l ∈ ["\t//println(1)".toList, "//".toList], beginsWith l preprocessorEnd = false) ∧
    (∀ l ∈ ["\t//println(1)".toList, "//".toList], blanksOf (afterMarker l) = []) ∧
    (∀ l ∈ ["\t//println(1)".toList, "//".toList],
      beginsWith (afterMarker l) commentStart = false) ∧
    ∃ mid c1 c2,
      processLines ["debug".toList] ([preprocessorStart ++ "debug".toList]
          ++ ["\t//println(1)".toList, "//".toList] ++ [preprocessorEnd])
        = some (mid, c1) ∧
      processLines [] mid
        = some ([preprocessorStart ++ "debug".toList]
          ++ ["\t//println(1)".toList, "//".toList] ++ [preprocessorEnd], c2) :=
  ⟨by decide, by decide, by decide, by decide,
    uncomment_then_comment "debug".toList ["\t//println(1)".toList, "//".toList]
      (by decide) (by decide) (by decide) (by decide)⟩

theorem commented_parts (l : Line) :
    blanksOf (blanksOf l ++ commentStart ++ afterBlanks l) = blanksOf l ∧
    afterMarker (blanksOf l ++ commentStart ++ afterBlanks l) = afterBlanks l := by
  have hs : blanksOf (commentStart ++ afterBlanks l) = [] := blanksOf_slash _
  have ha : afterBlanks (commentStart ++ afterBlanks l) = commentStart ++ afterBlanks l :=
    afterBlanks_slash _
  constructor
  · rw [List.append_assoc, blanksOf_append (onlyBlanks_blanksOf l), hs, List.append_nil]
  · rw [afterMarker, List.append_assoc, afterBlanks_append (onlyBlanks_blanksOf l), ha]
    rfl

/-- C3, as stated, fails: the body line `#endif` does not begin with `//`; the
run with no tag comments it into `//#endif`, an end directive, which the run
with the tag `debug` leaves as it is. -/
theorem comment_then_uncomment_differs :
    beginsWith "#endif".toList commentStart = false ∧
    processLines [] ["//#if debug".toList, "#endif".toList, "//#endif".toList]
      = some (["//#if debug".toList, "//#endif".toList, "//#endif".toList], true) ∧
    processLines ["debug".toList]
        ["//#if debug".toList, "//#endif".toList, "//#endif".toList]
      = some (["//#if debug".toList, "//#endif".toList, "//#endif".toList], false) ∧
    ["//#if debug".toList, "//#endif".toList, "//#endif".toList]
      ≠ ["//#if debug".toList, "#endif".toList, "//#endif".toList] := by
  decide

/-- C3 (amended): for every tag `T` and every file made of the start directive
`//#if T`, a body of lines none of which begins, after leading spaces/tabs,
with `//` or with `#endif`, and a closing `//#endif` line, running the line
loop with the empty tag set and then on that result with the tag set `{T}`
yields the original file. -/
theorem comment_then_uncomment (t : Line) (body : List Line)
    (h1 : ∀ l ∈ body, beginsWith l commentStart = false)
    (h2 : ∀ l ∈ body, beginsWith l bareEnd = false) :
    ∃ mid c1 c2,
      processLines [] ([preprocessorStart ++ t] ++ body ++ [preprocessorEnd])
        = some (mid, c1) ∧
      processLines [t] mid
        = some ([preprocessorStart ++ t] ++ body ++ [preprocessorEnd], c2) := by
  let g : Line → Line := fun l => blanksOf l ++ commentStart ++ afterBlanks l
  let k : Line → Line := fun m => blanksOf m ++ afterMarker m
  have hrun1 := outLines_one_block [] t lineFunc.comment g body
    (by simp [hasArgument_nil])
    (fun l hl => step_comment_insert [] (h1 l hl))
  have hrun2 := outLines_one_block [t] t lineFunc.unComment k (body.map g)
    (by simp [hasArgument_self])
    (mem_map_block (P := fun m => step [t] lineFunc.unComment m = (k m, lineFunc.unComment))
      (fun l hl => step_unComment_remove [t] (beginsWith_commented l).1
        (by rw [(beginsWith_commented l).2]; exact h2 l hl)))
  have hback : ∀ l ∈ body, k (g l) = l := by
    intro l _
    show blanksOf (blanksOf l ++ commentStart ++ afterBlanks l)
      ++ afterMarker (blanksOf l ++ commentStart ++ afterBlanks l) = l
    rw [(commented_parts l).1, (commented_parts l).2, blanksOf_append_afterBlanks]
  have e1 := processLines_eq [] ([preprocessorStart ++ t] ++ body ++ [preprocessorEnd])
  rw [hrun1] at e1
  have e2 := processLines_eq [t] ([preprocessorStart ++ t] ++ body.map g ++ [preprocessorEnd])
  rw [hrun2, map_map_block hback] at e2
  exact ⟨_, _, _, e1, e2⟩

/-- Witness for C3 (amended): the body `println("hi")` under the tag `debug`. -/
theorem comment_then_uncomment_witness :
    (∀ l ∈ ["println(\"hi\")".toList], beginsWith l commentStart = false) ∧
    (∀ l ∈ ["println(\"hi\")".toList], beginsWith l bareEnd = false) ∧
    ∃ mid c1 c2,
      processLines [] ([preprocessorStart ++ "debug".toList]
          ++ ["println(\"hi\")".toList] ++ [preprocessorEnd]) = some (mid, c1) ∧
      processLines ["debug".toList] mid
        = some ([preprocessorStart ++ "debug".toList]
          ++ ["println(\"hi\")".toList] ++ [preprocessorEnd], c2) :=
  ⟨by decide, by decide,
    comment_then_uncomment "debug".toList ["println(\"hi\")".toList] (by decide) (by decide)⟩

/-! ## Inserting the marker, and what each mode keeps -/

theorem afterBlanks_of_blanksOf_nil {r : Line} (h : blanksOf r = []) : afterBlanks r = r := by
  have := blanksOf_append_afterBlanks r
  rwa [h, List.nil_append] at this

/-- C11: on a line `w ++ r`, with `w` made of spaces and tabs only and `r`
beginning neither with a space or tab (so `w` is the maximal such prefix) nor
with `//` (`r` may be empty), `comment` returns `w ++ "//" ++ r` and the next
mode is `comment`. -/
theorem comment_inserts_marker (w r : Line) (hw : onlyBlanks w = true)
    (hr : blanksOf r = []) (hc : hasPrefix r commentStart = false) :
    comment (w ++ r) = some (w ++ commentStart ++ r, lineFunc.comment) := by
  have ha : afterBlanks (w ++ r) = r := by
    rw [afterBlanks_append hw, afterBlanks_of_blanksOf_nil hr]
  have hb : blanksOf (w ++ r) = w := by
    rw [blanksOf_append hw, hr, List.append_nil]
  have hn : beginsWith (w ++ r) commentStart = false := by
    rw [← hasPrefix_afterBlanks, ha]
    exact hc
  rw [comment_eq_step [], step_comment_insert [] hn, ha, hb]

/-- Witness for C11: the indented statement `x := 1`, and the empty content. -/
theorem comment_inserts_marker_witness :
    onlyBlanks "\t\t".toList = true ∧ blanksOf "x := 1".toList = [] ∧
    hasPrefix "x := 1".toList commentStart = false ∧
    comment ("\t\t".toList ++ "x := 1".toList)
      = some ("\t\t".toList ++ commentStart ++ "x := 1".toList, lineFunc.comment) :=
  ⟨by decide, by decide, by decide,
    comment_inserts_marker "\t\t".toList "x := 1".toList (by decide) (by decide) (by decide)⟩

theorem take_white_blanksOf_append (l x : Line) :
    (blanksOf l ++ x).take (whitePreffix l) = l.take (whitePreffix l) := by
  rw [take_whitePreffix, whitePreffix_eq]
  exact List.take_left' rfl

theorem step_take_white (args : List Line) (f : lineFunc) (line : Line) :
    (step args f line).1.take (whitePreffix line) = line.take (whitePreffix line) := by
  cases f
  · rw [step_read_fst]
  · by_cases he : beginsWith line preprocessorEnd = true
    · rw [step_end args _ he]
    · by_cases hc : beginsWith line commentStart = true
      · have hs : step args lineFunc.comment line = (line, lineFunc.comment) := by
          simp [step, he, hc]
        rw [hs]
      · simp only [Bool.not_eq_true] at hc
        rw [step_comment_insert args hc, List.append_assoc]
        exact take_white_blanksOf_append line _
  · by_cases he : beginsWith line preprocessorEnd = true
    · rw [step_end args _ he]
    · simp only [Bool.not_eq_true] at he
      by_cases hc : beginsWith line commentStart = true
      · rw [step_unComment_remove args hc he]
        exact take_white_blanksOf_append line _
      · have hs : step args lineFunc.unComment line = (line, lineFunc.unComment) := by
          simp [step, he, hc]
        rw [hs]

/-- C12: for each of the three modes, every tag set and every line, the line
returned begins with the leading spaces and tabs of the input line: the first
`whitePreffix(line)` characters of the output and of the input are the same. -/
theorem indentation_preserved (args : List Line) (f : lineFunc) (line : Line) :
    ∃ b g, call args f line = some (b, g) ∧
      b.take (whitePreffix line) = line.take (whitePreffix line) :=
  ⟨(step args f line).1, (step args f line).2, call_eq_step args f line,
    step_take_white args f line⟩

/-- C15: a line whose content after leading spaces/tabs does not begin with
`//` (a content of just `/`, or the empty content, included) is returned
unchanged by `unComment`, and the next mode is `unComment`. -/
theorem unComment_leaves_unmarked (line : Line)
    (h : beginsWith line commentStart = false) :
    unComment line = some (line, lineFunc.unComment) := by
  rw [unComment_eq_step []]
  simp [step, h, not_end_of_not_comment h]

/-- Witness for C15: the content `/` behind a tab. -/
theorem unComment_leaves_unmarked_witness :
    beginsWith "\t/".toList commentStart = false ∧
    unComment "\t/".toList = some ("\t/".toList, lineFunc.unComment) :=
  ⟨by decide, unComment_leaves_unmarked "\t/".toList (by decide)⟩

theorem step_comment_shape (args : List Line) (line : Line) :
    whitePreffix (step args lineFunc.comment line).1 = whitePreffix line ∧
    beginsWith (step args lineFunc.comment line).1 commentStart = true := by
  by_cases he : beginsWith line preprocessorEnd = true
  · rw [step_end args _ he]
    exact ⟨rfl, beginsWith_end_comment he⟩
  · by_cases hc : beginsWith line commentStart = true
    · have hs : step args lineFunc.comment line = (line, lineFunc.comment) := by
        simp [step, he, hc]
      rw [hs]
      exact ⟨rfl, hc⟩
    · simp only [Bool.not_eq_true] at hc
      rw [step_comment_insert args hc]
      refine ⟨?_, (beginsWith_commented line).1⟩
      rw [whitePreffix_eq, whitePreffix_eq, (commented_parts line).1]

/-- C18: the line returned by `comment` has the same number of leading spaces
and tabs as the input line, and its content after them begins with `//`. -/
theorem comment_output_is_comment (line : Line) :
    ∃ b g, comment line = some (b, g) ∧
      whitePreffix b = whitePreffix line ∧
      hasPrefix (b.drop (whitePreffix b)) commentStart = true := by
  refine ⟨(step [] lineFunc.comment line).1, (step [] lineFunc.comment line).2,
    comment_eq_step [] line, (step_comment_shape [] line).1, ?_⟩
  rw [drop_whitePreffix, hasPrefix_afterBlanks]
  exact (step_comment_shape [] line).2

/-! ## `whitePreffix` and the slices -/

theorem blank_iff (c : Char) : blank c = true ↔ (c = ' ' ∨ c = '\t') := by
  simp [blank]

theorem getElem_before_blanks (l : Line) (i : Nat) (h : i < (blanksOf l).length) :
    ∃ c, l[i]? = some c ∧ blank c = true := by
  induction l generalizing i with
  | nil => simp [blanksOf] at h
  | cons c l ih =>
    by_cases hc : blank c = true
    · cases i with
      | zero => exact ⟨c, by simp, hc⟩
      | succ j =>
        have hj : j < (blanksOf l).length := by
          simpa [blanksOf, List.takeWhile_cons, hc] using h
        obtain ⟨d, hd, hb⟩ := ih j hj
        exact ⟨d, by simpa using hd, hb⟩
    · simp [blanksOf, List.takeWhile_cons, hc] at h

theorem getElem_at_blanks (l : Line) (c : Char)
    (h : l[(blanksOf l).length]? = some c) : blank c = false := by
  induction l with
  | nil => simp at h
  | cons d l ih =>
    by_cases hd : blank d = true
    · apply ih
      simpa [blanksOf, List.takeWhile_cons, hd] using h
    · have : d = c := by simpa [blanksOf, List.takeWhile_cons, hd] using h
      rw [← this]
      simpa using hd

/-- C16: `whitePreffix(line)` is the length of the maximal leading run of
spaces and tabs: it is at most `len(line)`, every character before it is a
space or a tab, and the character at it, if there is one, is neither.  So the
slices `line[p:]`, `line[:p]`, `line[p+6:]` after the `//#if ` test and
`trimmed[2:]` after the `//` test are within bounds, and `read`, `comment` and
`unComment` return a result on every line. -/
theorem whitePreffix_bounds (line : Line) :
    whitePreffix line ≤ len line ∧
    (∀ i, i < whitePreffix line → ∃ c, (line)[i]? = some c ∧ (c = ' ' ∨ c = '\t')) ∧
    (whitePreffix line < len line →
      ∃ c, (line)[whitePreffix line]? = some c ∧ c ≠ ' ' ∧ c ≠ '\t') ∧
    (∃ t, sliceFrom line (whitePreffix line) = some t ∧
      (∃ a, sliceTo line (whitePreffix line) = some a) ∧
      (hasPrefix t preprocessorStart = true →
        ∃ a, sliceFrom line (whitePreffix line + len preprocessorStart) = some a) ∧
      (hasPrefix t commentStart = true → ∃ b, sliceFrom t 2 = some b)) ∧
    (∀ (args : List Line) (f : lineFunc), ∃ b g, call args f line = some (b, g)) := by
  refine ⟨whitePreffix_le line, ?_, ?_, ?_, ?_⟩
  · intro i hi
    rw [whitePreffix_eq] at hi
    obtain ⟨c, hc, hb⟩ := getElem_before_blanks line i hi
    exact ⟨c, hc, (blank_iff c).1 hb⟩
  · intro hlt
    have hlt2 : whitePreffix line < line.length := hlt
    refine ⟨(line)[whitePreffix line], List.getElem?_eq_getElem hlt2, ?_⟩
    have hb := getElem_at_blanks line ((line)[whitePreffix line])
      (by rw [← whitePreffix_eq]; exact List.getElem?_eq_getElem hlt2)
    constructor
    · intro e
      rw [e] at hb
      exact absurd hb (by decide)
    · intro e
      rw [e] at hb
      exact absurd hb (by decide)
  · refine ⟨afterBlanks line, sliceFrom_white line, ⟨_, sliceTo_white line⟩, ?_, ?_⟩
    · intro h
      rw [hasPrefix_afterBlanks] at h
      have hlen := length_of_beginsWith h
      have := length_eq_white_add line
      refine ⟨line.drop (whitePreffix line + len preprocessorStart), ?_⟩
      simp only [sliceFrom, len] at *
      rw [if_pos (by omega)]
    · intro h
      rw [hasPrefix_afterBlanks] at h
      have hlen := length_of_beginsWith h
      have h2 : commentStart.length = 2 := rfl
      refine ⟨(afterBlanks line).drop 2, ?_⟩
      simp only [sliceFrom, len]
      rw [if_pos (by omega)]
  · intro args f
    exact ⟨_, _, call_eq_step args f line⟩

/-! ## An unterminated block -/

theorem step_stay (args : List Line) (f : lineFunc) (hf : f ≠ lineFunc.read) {l : Line}
    (he : beginsWith l preprocessorEnd = false) : (step args f l).2 = f := by
  cases f
  · exact absurd rfl hf
  · by_cases hc : beginsWith l commentStart = true <;> simp [step, he, hc]
  · by_cases hc : beginsWith l commentStart = true <;> simp [step, he, hc]

/-- C13: for every tag set `A`, tag `t` and list of lines `ls` none of which
begins, after leading spaces/tabs, with `//#endif`, the line loop on the file
`//#if t` followed by `ls` returns a result, which is `//#if t` followed, line
by line, by what `unComment` returns on the line if `t` is in `A` and by what
`comment` returns on it otherwise. -/
theorem unterminated_block (args : List Line) (t : Line) (ls : List Line)
    (h : ∀ l ∈ ls, beginsWith l preprocessorEnd = false) :
    ∃ out changed,
      processLines args ((preprocessorStart ++ t) :: ls)
        = some ((preprocessorStart ++ t) :: out, changed) ∧
      out.map some
        = ls.map (fun l => (if t ∈ args then unComment l else comment l).map Prod.fst) := by
  have hrun : ∀ f : lineFunc, f ≠ lineFunc.read →
      outLines args f ls = ls.map (fun l => (step args f l).1) := by
    intro f hf
    have := outLines_block args f (fun l => (step args f l).1) ls []
      (fun l hl => Prod.ext rfl (step_stay args f hf (h l hl)))
    simpa [outLines] using this
  have hp : processLines args ((preprocessorStart ++ t) :: ls)
      = some ((preprocessorStart ++ t) :: outLines args
          (if hasArgument args t then lineFunc.unComment else lineFunc.comment) ls,
        anyChanged args lineFunc.read ((preprocessorStart ++ t) :: ls)) := by
    rw [processLines_eq]
    simp only [outLines, step_read_start]
  by_cases ht : t ∈ args
  · have ha := (hasArgument_iff args t).2 ht
    simp only [ha, if_true] at hp
    refine ⟨_, _, hp, ?_⟩
    simp only [ht, if_true]
    rw [hrun lineFunc.unComment (by decide), List.map_map]
    exact List.map_congr_left (fun l _ => by simp [unComment_eq_step args])
  · have ha : hasArgument args t = false := by
      cases hh : hasArgument args t
      · rfl
      · exact absurd ((hasArgument_iff args t).1 hh) ht
    simp only [ha, if_false, Bool.false_eq_true] at hp
    refine ⟨_, _, hp, ?_⟩
    simp only [ht, if_false]
    rw [hrun lineFunc.comment (by decide), List.map_map]
    exact List.map_congr_left (fun l _ => by simp [comment_eq_step args])

/-- Witness for C13: the block `//#if x` is never closed; with the tag `x`
the two commented lines lose their marker and the bare line is kept. -/
theorem unterminated_block_witness :
    (∀ l ∈ ["//a()".toList, "\t//b()".toList, "c()".toList],
      beginsWith l preprocessorEnd = false) ∧
    ∃ out changed,
      processLines ["x".toList]
          ((preprocessorStart ++ "x".toList)
            :: ["//a()".toList, "\t//b()".toList, "c()".toList])
        = some ((preprocessorStart ++ "x".toList) :: out, changed) ∧
      out.map some
        = ["//a()".toList, "\t//b()".toList, "c()".toList].map
          (fun l => (if "x".toList ∈ ["x".toList] then unComment l else comment l).map
            Prod.fst) :=
  ⟨by decide, unterminated_block ["x".toList] "x".toList _ (by decide)⟩

/-! ## The changed flag -/

theorem anyChanged_iff (args : List Line) (f : lineFunc) (ls : List Line) :
    anyChanged args f ls = true ↔ outLines args f ls ≠ ls := by
  induction ls generalizing f with
  | nil => simp [anyChanged, outLines]
  | cons a rest ih =>
    simp only [anyChanged, outLines, Bool.or_eq_true, ih, ne_eq, List.cons.injEq, not_and_or]
    by_cases h : (step args f a).1 = a <;> simp [h]

theorem ne_iff_exists_getElem (out ls : List Line) (hlen : out.length = ls.length) :
    out ≠ ls ↔ ∃ i, i < ls.length ∧ out[i]? ≠ ls[i]? := by
  constructor
  · intro hne
    by_contra hno
    apply hne
    apply List.ext_getElem?
    intro n
    by_cases hn : n < ls.length
    · by_contra hd
      exact hno ⟨n, hn, hd⟩
    · have h1 : ls.length ≤ n := Nat.le_of_not_lt hn
      rw [List.getElem?_eq_none (by omega), List.getElem?_eq_none h1]
  · rintro ⟨i, _, hi⟩ e
    exact hi (by rw [e])

/-- C14: for every tag set and every list of input lines, the changed flag
returned by the line loop is true if and only if some output line differs from
the input line at the same position, that is, if and only if the output list
differs from the input list. -/
theorem changed_flag_exact (args : List Line) (ls : List Line) :
    ∃ out changed, processLines args ls = some (out, changed) ∧
      (changed = true ↔ ∃ i, i < ls.length ∧ out[i]? ≠ ls[i]?) ∧
      (changed = true ↔ out ≠ ls) := by
  refine ⟨_, _, processLines_eq args ls, ?_, anyChanged_iff args _ ls⟩
  rw [anyChanged_iff, ne_iff_exists_getElem _ _ (outLines_length args _ ls)]

/-! ## Running twice without a tag -/

theorem step_read_nil (l : Line) :
    step [] lineFunc.read l
      = (l, if beginsWith l preprocessorStart then lineFunc.comment else lineFunc.read) := by
  by_cases h : beginsWith l preprocessorStart = true <;> simp [step, h, hasArgument]

theorem step_comment_of_comment (args : List Line) {b : Line}
    (hc : beginsWith b commentStart = true) :
    step args lineFunc.comment b
      = (b, if beginsWith b preprocessorEnd then lineFunc.read else lineFunc.comment) := by
  by_cases he : beginsWith b preprocessorEnd = true <;> simp [step, he, hc]

theorem step_rerun_nil (f1 f2 : lineFunc) (l : Line)
    (hP : (f1 = lineFunc.read ∧ f2 = lineFunc.read) ∨
      (f1 = lineFunc.comment ∧ f2 = lineFunc.comment) ∨
      (f1 = lineFunc.comment ∧ f2 = lineFunc.read)) :
    ∃ g2, step [] f2 (step [] f1 l).1 = ((step [] f1 l).1, g2) ∧
      (((step [] f1 l).2 = lineFunc.read ∧ g2 = lineFunc.read) ∨
       ((step [] f1 l).2 = lineFunc.comment ∧ g2 = lineFunc.comment) ∨
       ((step [] f1 l).2 = lineFunc.comment ∧ g2 = lineFunc.read)) := by
  rcases hP with ⟨h1, h2⟩ | ⟨h1, h2⟩ | ⟨h1, h2⟩
  · subst h1; subst h2
    rw [step_read_nil l]
    refine ⟨_, step_read_nil l, ?_⟩
    by_cases h : beginsWith l preprocessorStart = true <;> simp [h]
  · subst h1; subst h2
    by_cases he : beginsWith l preprocessorEnd = true
    · rw [step_end [] _ he]
      exact ⟨_, step_end [] _ he, Or.inl ⟨rfl, rfl⟩⟩
    · simp only [Bool.not_eq_true] at he
      have hs := step_stay [] lineFunc.comment (by decide) he
      have hc := (step_comment_shape [] l).2
      refine ⟨_, step_comment_of_comment [] hc, ?_⟩
      rw [hs]
      by_cases hb : beginsWith (step [] lineFunc.comment l).1 preprocessorEnd = true
        <;> simp [hb]
  · subst h1; subst h2
    by_cases he : beginsWith l preprocessorEnd = true
    · rw [step_end [] _ he]
      refine ⟨_, step_read_nil l, ?_⟩
      simp [beginsWith_end_start he]
    · simp only [Bool.not_eq_true] at he
      have hs := step_stay [] lineFunc.comment (by decide) he
      refine ⟨_, step_read_nil _, ?_⟩
      rw [hs]
      by_cases hb : beginsWith (step [] lineFunc.comment l).1 preprocessorStart = true
        <;> simp [hb]

theorem outLines_rerun_nil (ls : List Line) (f1 f2 : lineFunc)
    (hP : (f1 = lineFunc.read ∧ f2 = lineFunc.read) ∨
      (f1 = lineFunc.comment ∧ f2 = lineFunc.comment) ∨
      (f1 = lineFunc.comment ∧ f2 = lineFunc.read)) :
    outLines [] f2 (outLines [] f1 ls) = outLines [] f1 ls ∧
    anyChanged [] f2 (outLines [] f1 ls) = false := by
  induction ls generalizing f1 f2 with
  | nil => exact ⟨rfl, rfl⟩
  | cons a rest ih =>
    obtain ⟨g2, hg, hP2⟩ := step_rerun_nil f1 f2 a hP
    have := ih (step [] f1 a).2 g2 hP2
    simp only [outLines, anyChanged, hg, this.1, this.2]
    simp

/-- C17: for every list of lines, running the line loop with the empty tag set
on the output it produced with the empty tag set returns that output unchanged
and reports changed = false. -/
theorem rerun_no_tags_fixed (ls : List Line) :
    ∃ out changed, processLines [] ls = some (out, changed) ∧
      processLines [] out = some (out, false) := by
  have h := outLines_rerun_nil ls lineFunc.read lineFunc.read (Or.inl ⟨rfl, rfl⟩)
  refine ⟨_, _, processLines_eq [] ls, ?_⟩
  rw [processLines_eq, h.1, h.2]

/-! ## The tag set matters only through the tags of the file -/

theorem form_of_beginsWith_start {l : Line} (h : beginsWith l preprocessorStart = true) :
    l = blanksOf l ++ preprocessorStart ++ (afterBlanks l).drop 6 := by
  obtain ⟨r, hr⟩ := (beginsWith_iff l preprocessorStart).1 h
  have hd : (preprocessorStart ++ r).drop 6 = r := rfl
  rw [hr, hd, List.append_assoc, ← hr, blanksOf_append_afterBlanks]

theorem tag_of_form {w r : Line} (hw : onlyBlanks w = true) :
    beginsWith (w ++ preprocessorStart ++ r) preprocessorStart = true ∧
    (afterBlanks (w ++ preprocessorStart ++ r)).drop 6 = r := by
  have ha : afterBlanks (w ++ preprocessorStart ++ r) = preprocessorStart ++ r := by
    rw [List.append_assoc, afterBlanks_append hw]
    exact afterBlanks_slash _
  exact ⟨(beginsWith_iff _ _).2 ⟨r, ha⟩, by rw [ha]; rfl⟩

/-- The condition of C19 on one line, from its decidable form: if the line
begins with `//#if `, what follows that prefix is in `A` iff it is in `B`. -/
theorem same_on_form {A B : List Line} {l : Line}
    (h : beginsWith l preprocessorStart = true →
      ((afterBlanks l).drop 6 ∈ A ↔ (afterBlanks l).drop 6 ∈ B)) :
    ∀ w r : Line, onlyBlanks w = true → l = w ++ preprocessorStart ++ r →
      (r ∈ A ↔ r ∈ B) := by
  intro w r hw hl
  have := tag_of_form (r := r) hw
  rw [← hl] at this
  have h2 := h this.1
  rwa [this.2] at h2

theorem step_same_tags (A B : List Line) (f : lineFunc) (l : Line)
    (h : ∀ w r : Line, onlyBlanks w = true → l = w ++ preprocessorStart ++ r →
      (r ∈ A ↔ r ∈ B)) :
    step A f l = step B f l := by
  cases f
  · by_cases hb : beginsWith l preprocessorStart = true
    · have hiff := h (blanksOf l) ((afterBlanks l).drop 6) (onlyBlanks_blanksOf l)
        (form_of_beginsWith_start hb)
      have ha : hasArgument A ((afterBlanks l).drop 6)
          = hasArgument B ((afterBlanks l).drop 6) := by
        rw [Bool.eq_iff_iff, hasArgument_iff, hasArgument_iff]
        exact hiff
      simp only [step, hb, if_true, ha]
    · simp [step, hb]
  · rfl
  · rfl

theorem outLines_same_tags (A B : List Line) (ls : List Line) (f : lineFunc)
    (h : ∀ l ∈ ls, ∀ w r : Line, onlyBlanks w = true → l = w ++ preprocessorStart ++ r →
      (r ∈ A ↔ r ∈ B)) :
    outLines A f ls = outLines B f ls ∧ anyChanged A f ls = anyChanged B f ls := by
  induction ls generalizing f with
  | nil => exact ⟨rfl, rfl⟩
  | cons a rest ih =>
    have hs := step_same_tags A B f a (h a (List.mem_cons_self a rest))
    have := ih (step B f a).2 (fun l hl => h l (List.mem_cons_of_mem a hl))
    simp only [outLines, anyChanged, hs, this.1, this.2]
    exact ⟨trivial, trivial⟩

/-- C19: for every list of lines and tag sets `A` and `B` such that, for every
line of the form `w ++ "//#if " ++ r` with `w` made of spaces and tabs only,
`r` is in `A` if and only if `r` is in `B`, the line loop returns the same
output lines and the same changed flag under `A` and under `B`. -/
theorem tags_only_through_file (ls : List Line) (A B : List Line)
    (h : ∀ l ∈ ls, ∀ w r : Line, onlyBlanks w = true → l = w ++ preprocessorStart ++ r →
      (r ∈ A ↔ r ∈ B)) :
    ∃ out changed, processLines A ls = some (out, changed) ∧
      processLines B ls = some (out, changed) := by
  refine ⟨_, _, processLines_eq A ls, ?_⟩
  rw [processLines_eq, (outLines_same_tags A B ls _ h).1, (outLines_same_tags A B ls _ h).2]

/-- Witness for C19: the file uses the tags `x` and `y`; the tag sets `x, z`
and `w, x, x` agree on them. -/
theorem tags_only_through_file_witness :
    (∀ l ∈ ["//#if x".toList, "//a()".toList, "//#endif".toList, " //#if y".toList,
        "b()".toList],
      ∀ w r : Line, onlyBlanks w = true → l = w ++ preprocessorStart ++ r →
        (r ∈ ["x".toList, "z".toList] ↔ r ∈ ["w".toList, "x".toList, "x".toList])) ∧
    ∃ out changed,
      processLines ["x".toList, "z".toList] ["//#if x".toList, "//a()".toList,
        "//#endif".toList, " //#if y".toList, "b()".toList] = some (out, changed) ∧
      processLines ["w".toList, "x".toList, "x".toList] ["//#if x".toList, "//a()".toList,
        "//#endif".toList, " //#if y".toList, "b()".toList] = some (out, changed) :=
  ⟨fun l hl => same_on_form (by revert l; decide),
    tags_only_through_file _ _ _ (fun l hl => same_on_form (by revert l; decide))⟩

end Goprep
